import Mathlib

/-!
Verification development for the onnxruntime contrib summary operators
(onnxruntime/contrib_ops/cpu/summary_op.cc) and the training data loader
(onnxruntime/test/training/runner/data_loader.cc).

Double values are modelled as exact rationals: every comparison and
increment the verified claims depend on is an exact order comparison or
an exact small-integer step, so the embedding into the rationals is
order-faithful. The literals 1e-12, 1.1 and 1e20 from
InitDefaultHistogramBuckets are taken at their exact decimal values.
size_t arithmetic is modelled as natural numbers reduced modulo 2 ^ 64
at the points where the C++ code can wrap.
-/

/-- Model of std::numeric_limits of double .. max(), the largest finite
double, equal to (2 ^ 53 - 1) * 2 ^ 971. The specification calls this
final bucket edge plus-infinity. -/
def dblMax : ℚ := ((2:ℚ) ^ 53 - 1) * 2 ^ 971

/-- Model of the while loop in InitDefaultHistogramBuckets: starting from v,
push v while v < 1e20, multiplying by 1.1 each step. The fuel bound 1000
exceeds the number of iterations the loop performs from 1e-12. -/
def genBuckets : ℕ → ℚ → List ℚ
  | 0, _ => []
  | fuel + 1, v => if v < (10:ℚ) ^ 20 then v :: genBuckets fuel (v * (11/10)) else []

/-- Positive bucket edges built by InitDefaultHistogramBuckets: the geometric
sequence from 1e-12, followed by the largest finite double. -/
def posBuckets : List ℚ := genBuckets 1000 (1 / (10:ℚ) ^ 12) ++ [dblMax]

/-- Model of InitDefaultHistogramBuckets: the mirrored table
(-buckets reversed, then 0, then buckets). -/
def InitDefaultHistogramBuckets : List ℚ :=
  (posBuckets.reverse.map (fun b => -b)) ++ [(0:ℚ)] ++ posBuckets

/-- Model of std..upper_bound over a vector of doubles: the index of the
first element strictly greater than v, which on a sorted list is the length
of the longest prefix of elements less than or equal to v. -/
def upperBound (l : List ℚ) (v : ℚ) : ℕ :=
  (l.takeWhile (fun x => decide (x ≤ v))).length

/-- Model of the Histogram class state in summary_op.cc. -/
structure Histogram where
  hmin : ℚ
  hmax : ℚ
  num : ℚ
  sum : ℚ
  sum_squares : ℚ
  bucket_limits : List ℚ
  buckets : List ℚ

/-- Model of the default Histogram constructor: default bucket table, all
counts zero, min at DBL_MAX, max at -DBL_MAX. -/
def mkHistogram : Histogram :=
  { hmin := dblMax, hmax := -dblMax, num := 0, sum := 0, sum_squares := 0
  , bucket_limits := InitDefaultHistogramBuckets
  , buckets := List.replicate InitDefaultHistogramBuckets.length 0 }

/-- Model of the explicit Histogram constructor taking a custom limits
vector, with counts sized to match. -/
def mkHistogramWith (limits : List ℚ) : Histogram :=
  { hmin := dblMax, hmax := -dblMax, num := 0, sum := 0, sum_squares := 0
  , bucket_limits := limits
  , buckets := List.replicate limits.length 0 }

/-- Model of Histogram..Add: update running statistics, then increment the
bucket at the upper-bound index of the value. The C++ write
buckets_[bucket] += 1.0 is in bounds only when the index is below the
vector length; an out-of-range index is undefined behaviour in C++ and is
modelled here as leaving the counts unchanged (List.set out of range is the
identity), which the theorems below make explicit. -/
def Histogram.add (h : Histogram) (v : ℚ) : Histogram :=
  let b := upperBound h.bucket_limits v
  { hmin := if v < h.hmin then v else h.hmin
  , hmax := if v > h.hmax then v else h.hmax
  , num := h.num + 1
  , sum := h.sum + v
  , sum_squares := h.sum_squares + v * v
  , bucket_limits := h.bucket_limits
  , buckets := h.buckets.set b (h.buckets.getD b 0 + 1) }

/-- Model of one iteration of the SerializeToProto bucket loop, with the
emitted pairs accumulated in reverse (head of acc is the most recently
emitted (count, edge) pair). When the current count is zero and the last
emitted count is zero, the last emitted edge is widened to the current
edge; otherwise a new pair is appended. -/
def mergeStep (acc : List (ℚ × ℚ)) (p : ℚ × ℚ) : List (ℚ × ℚ) :=
  match acc with
  | q :: rest => if p.1 = 0 ∧ q.1 = 0 then (q.1, p.2) :: rest else p :: q :: rest
  | [] => [p]

/-- Pairs emitted by the SerializeToProto bucket loop, in emission order. -/
def Histogram.rawPairs (h : Histogram) : List (ℚ × ℚ) :=
  ((h.buckets.zip h.bucket_limits).foldl mergeStep []).reverse

/-- Model of the serialized HistogramProto record: scalar statistics plus
the (bucket count, bucket edge) pair list. -/
structure HistogramProto where
  hmin : ℚ
  hmax : ℚ
  num : ℚ
  sum : ℚ
  sum_squares : ℚ
  pairs : List (ℚ × ℚ)

/-- Model of Histogram..SerializeToProto: copy the scalar statistics, run
the bucket-merging loop, and fall back to the single pair (0, DBL_MAX)
when the loop emitted nothing. -/
def Histogram.serializeToProto (h : Histogram) : HistogramProto :=
  { hmin := h.hmin, hmax := h.hmax, num := h.num, sum := h.sum
  , sum_squares := h.sum_squares
  , pairs := if h.rawPairs = [] then [(0, dblMax)] else h.rawPairs }

/-- Modelled from the spec (bucket-merging rule of SerializeToProto, stated
in the words of the specification): iterate the (count, edge) pairs in
ascending edge order keeping the previously emitted pair pending; when the
current count is zero and the pending count is zero, widen the pending
edge to the current edge instead of emitting a new pair. -/
def specMergeAux : Option (ℚ × ℚ) → List (ℚ × ℚ) → List (ℚ × ℚ)
  | none, [] => []
  | some p, [] => [p]
  | none, q :: rest => specMergeAux (some q) rest
  | some p, q :: rest =>
      if q.1 = 0 ∧ p.1 = 0 then specMergeAux (some (p.1, q.2)) rest
      else p :: specMergeAux (some q) rest

/-- Modelled from the spec: the bucket-merging rule applied to a whole
pair list, with no pair emitted yet. -/
def specMerge (l : List (ℚ × ℚ)) : List (ℚ × ℚ) := specMergeAux none l

/-- Relation between two adjacent emitted pairs: they are not both
zero-count. -/
def noTwoZeros (a b : ℚ × ℚ) : Prop := ¬(a.1 = 0 ∧ b.1 = 0)

theorem foldl_mergeStep_reverse (l : List (ℚ × ℚ)) :
    ∀ (p : ℚ × ℚ) (racc : List (ℚ × ℚ)),
      (List.foldl mergeStep (p :: racc) l).reverse =
        racc.reverse ++ specMergeAux (some p) l := by
  induction l with
  | nil => intro p racc; simp [specMergeAux]
  | cons q rest ih =>
      intro p racc
      by_cases hq : q.1 = 0 ∧ p.1 = 0
      · rw [List.foldl_cons]
        have hm : mergeStep (p :: racc) q = (p.1, q.2) :: racc := by
          simp [mergeStep, hq]
        rw [hm, ih (p.1, q.2) racc]
        simp [specMergeAux, hq]
      · rw [List.foldl_cons]
        have hm : mergeStep (p :: racc) q = q :: p :: racc := by
          simp [mergeStep, hq]
        rw [hm, ih q (p :: racc)]
        simp [specMergeAux, hq]

theorem specMergeAux_head (l : List (ℚ × ℚ)) :
    ∀ p : ℚ × ℚ, ∃ e rest, specMergeAux (some p) l = (p.1, e) :: rest := by
  induction l with
  | nil => intro p; exact ⟨p.2, [], by simp [specMergeAux]⟩
  | cons q rest ih =>
      intro p
      by_cases hq : q.1 = 0 ∧ p.1 = 0
      · obtain ⟨e, r, hr⟩ := ih (p.1, q.2)
        exact ⟨e, r, by rw [specMergeAux, if_pos hq]; exact hr⟩
      · exact ⟨p.2, specMergeAux (some q) rest, by rw [specMergeAux, if_neg hq]⟩

theorem specMergeAux_chain (l : List (ℚ × ℚ)) :
    ∀ p : ℚ × ℚ, List.Chain' noTwoZeros (specMergeAux (some p) l) := by
  induction l with
  | nil => intro p; simp [specMergeAux]
  | cons q rest ih =>
      intro p
      by_cases hq : q.1 = 0 ∧ p.1 = 0
      · rw [specMergeAux, if_pos hq]; exact ih (p.1, q.2)
      · rw [specMergeAux, if_neg hq]
        obtain ⟨e, r, hr⟩ := specMergeAux_head rest q
        have hc := ih q
        rw [hr] at hc ⊢
        rw [List.chain'_cons]
        exact ⟨fun hcon => hq ⟨hcon.2, hcon.1⟩, hc⟩

theorem rawPairs_eq_specMerge (h : Histogram) :
    h.rawPairs = specMerge (h.buckets.zip h.bucket_limits) := by
  rw [Histogram.rawPairs, specMerge]
  cases hz : h.buckets.zip h.bucket_limits with
  | nil => simp [specMergeAux]
  | cons q rest =>
      rw [List.foldl_cons]
      have hm : mergeStep [] q = [q] := rfl
      rw [hm]
      have := foldl_mergeStep_reverse rest q []
      simp only [List.reverse_nil, List.nil_append] at this
      rw [this, specMergeAux]

/-- C1: SerializeToProto iterates buckets in ascending edge order and emits
one (count, edge) pair per bucket, except that a zero-count bucket whose
previously emitted pair also has count zero is not emitted but widens the
previous edge (the loop equals the spec-side merge rule specMerge), and
consequently the serialized output never contains two consecutive
zero-count pairs. -/
theorem serialize_merges_zero_buckets :
    ∀ h : Histogram,
      h.rawPairs = specMerge (h.buckets.zip h.bucket_limits) ∧
      List.Chain' noTwoZeros h.serializeToProto.pairs := by
  intro h
  refine ⟨rawPairs_eq_specMerge h, ?_⟩
  rw [Histogram.serializeToProto]
  by_cases hr : h.rawPairs = []
  · simp [hr]
  · simp only [if_neg hr]
    rw [rawPairs_eq_specMerge h] at hr ⊢
    cases hz : h.buckets.zip h.bucket_limits with
    | nil => rw [hz] at hr; simp [specMerge, specMergeAux] at hr
    | cons q rest =>
        rw [specMerge, specMergeAux]
        exact specMergeAux_chain rest q

theorem zip_replicate_zero (l : List ℚ) :
    (List.replicate l.length (0:ℚ)).zip l = l.map (fun x => ((0:ℚ), x)) := by
  induction l with
  | nil => rfl
  | cons x xs ih => simp [List.replicate, ih]

theorem specMergeAux_zero_run (l : List ℚ) :
    ∀ e : ℚ, specMergeAux (some (0, e)) (l.map (fun x => ((0:ℚ), x))) =
      [(0, l.getLastD e)] := by
  induction l with
  | nil => intro e; simp [specMergeAux]
  | cons x xs ih =>
      intro e
      rw [List.map_cons, specMergeAux, if_pos (by exact ⟨rfl, rfl⟩)]
      rw [ih x, List.getLastD_cons]

theorem fresh_rawPairs (limits : List ℚ) (hne : limits ≠ []) :
    (mkHistogramWith limits).rawPairs = [(0, limits.getLastD 0)] := by
  rw [rawPairs_eq_specMerge]
  have hb : (mkHistogramWith limits).buckets = List.replicate limits.length 0 := rfl
  have hl : (mkHistogramWith limits).bucket_limits = limits := rfl
  rw [hb, hl, zip_replicate_zero]
  cases limits with
  | nil => exact absurd rfl hne
  | cons x xs =>
      rw [List.map_cons, specMerge, specMergeAux, specMergeAux_zero_run xs x]
      rw [List.getLastD_cons]

theorem getLastD_concat_any (l : List ℚ) (a d : ℚ) : (l ++ [a]).getLastD d = a := by
  simp

theorem default_getLastD : InitDefaultHistogramBuckets.getLastD 0 = dblMax := by
  have h : InitDefaultHistogramBuckets =
      ((posBuckets.reverse.map (fun b => -b)) ++ [(0:ℚ)] ++
        genBuckets 1000 (1 / (10:ℚ) ^ 12)) ++ [dblMax] := by
    rw [InitDefaultHistogramBuckets, posBuckets]
    simp
  rw [h, getLastD_concat_any]

theorem default_ne_nil : InitDefaultHistogramBuckets ≠ [] := by
  simp [InitDefaultHistogramBuckets]

theorem mkHistogram_eq_with : mkHistogram = mkHistogramWith InitDefaultHistogramBuckets := rfl

/-- C2: a fresh Histogram with the default bucket table on which Add was
never called serializes to exactly one (count, edge) pair, namely
(0, DBL_MAX) (the largest finite double, which the specification writes as
plus-infinity); and for every histogram state, the serialized output
contains at least one pair. -/
theorem serialize_fresh_histogram :
    mkHistogram.serializeToProto.pairs = [(0, dblMax)] ∧
    ∀ h : Histogram, 1 ≤ h.serializeToProto.pairs.length := by
  constructor
  · have h1 : mkHistogram.rawPairs = [(0, dblMax)] := by
      rw [mkHistogram_eq_with, fresh_rawPairs _ default_ne_nil, default_getLastD]
    simp [Histogram.serializeToProto, h1]
  · intro h
    rw [Histogram.serializeToProto]
    by_cases hr : h.rawPairs = []
    · simp [hr]
    · simp only [if_neg hr]
      have := List.length_pos.mpr hr
      omega

theorem upperBound_spec (l : List ℚ) (v : ℚ) :
    (∀ i, i < upperBound l v → l.getD i 0 ≤ v) ∧
    (upperBound l v < l.length → v < l.getD (upperBound l v) 0) ∧
    upperBound l v ≤ l.length := by
  induction l with
  | nil => simp [upperBound]
  | cons x xs ih =>
      by_cases hx : x ≤ v
      · have hub : upperBound (x :: xs) v = upperBound xs v + 1 := by
          simp [upperBound, List.takeWhile_cons, hx]
        refine ⟨?_, ?_, ?_⟩
        · intro i hi
          rw [hub] at hi
          cases i with
          | zero => simpa using hx
          | succ j => simpa using ih.1 j (by omega)
        · intro hlt
          rw [hub] at hlt ⊢
          simp only [List.length_cons] at hlt
          simpa using ih.2.1 (by omega)
        · rw [hub]
          simp only [List.length_cons]
          have := ih.2.2
          omega
      · have hub : upperBound (x :: xs) v = 0 := by
          simp [upperBound, List.takeWhile_cons, hx]
        refine ⟨?_, ?_, ?_⟩
        · intro i hi; rw [hub] at hi; omega
        · intro _
          rw [hub]
          simpa using not_le.mp hx
        · rw [hub]; omega

theorem getD_set_incr (l : List ℚ) :
    ∀ (n : ℕ) (a : ℚ) (i : ℕ),
      (l.set n a).getD i 0 = if i = n ∧ n < l.length then a else l.getD i 0 := by
  induction l with
  | nil => intro n a i; simp
  | cons x xs ih =>
      intro n a i
      cases n with
      | zero =>
          cases i with
          | zero => simp
          | succ j => simp
      | succ m =>
          cases i with
          | zero => simp
          | succ j =>
              simp only [List.set_cons_succ, List.getD_cons_succ, List.length_cons]
              rw [ih m a j]
              by_cases hj : j = m ∧ m < xs.length
              · rw [if_pos hj, if_pos ⟨by omega, by omega⟩]
              · rw [if_neg hj, if_neg (by omega)]

/-- C3: Add(v) increments the count of the bucket at the index of the first
bucket edge strictly greater than v: every edge before the chosen index is
at most v, the edge at the chosen index (when it exists) is strictly
greater than v, exactly that bucket count grows by one, and concretely
with edges [0, 1, 2] adding the value 1 increments the bucket at index 2,
the one after edge 1. -/
theorem add_uses_upper_bound :
    (∀ (l : List ℚ) (v : ℚ),
       (∀ i, i < upperBound l v → l.getD i 0 ≤ v) ∧
       (upperBound l v < l.length → v < l.getD (upperBound l v) 0)) ∧
    (∀ (h : Histogram) (v : ℚ) (i : ℕ), i < h.buckets.length →
       (h.add v).buckets.getD i 0 =
         h.buckets.getD i 0 +
           (if i = upperBound h.bucket_limits v then 1 else 0)) ∧
    ((mkHistogramWith [0, 1, 2]).add 1).buckets = [0, 0, 1] := by
  refine ⟨fun l v => ⟨(upperBound_spec l v).1, (upperBound_spec l v).2.1⟩, ?_, ?_⟩
  · intro h v i hi
    have hb : (h.add v).buckets =
        h.buckets.set (upperBound h.bucket_limits v)
          (h.buckets.getD (upperBound h.bucket_limits v) 0 + 1) := rfl
    rw [hb, getD_set_incr]
    by_cases hieq : i = upperBound h.bucket_limits v
    · rw [if_pos hieq, if_pos ⟨hieq, by omega⟩]
      rw [hieq]
    · rw [if_neg hieq, if_neg (by exact fun hc => hieq hc.1)]
      ring
  · simp [mkHistogramWith, Histogram.add, upperBound, List.takeWhile]

theorem add_uses_upper_bound_witness :
    ((mkHistogramWith [0, 1, 2]).add 1).buckets.getD 2 0 =
      (mkHistogramWith [0, 1, 2]).buckets.getD 2 0 +
        (if 2 = upperBound (mkHistogramWith [0, 1, 2]).bucket_limits 1
          then 1 else 0) :=
  add_uses_upper_bound.2.1 (mkHistogramWith [0, 1, 2]) 1 2
    (by simp [mkHistogramWith])

theorem genBuckets_mem_bounds :
    ∀ (fuel : ℕ) (v : ℚ), 0 < v →
      ∀ x ∈ genBuckets fuel v, 0 < x ∧ x < (10:ℚ) ^ 20 := by
  intro fuel
  induction fuel with
  | zero => intro v _ x hx; simp [genBuckets] at hx
  | succ n ih =>
      intro v hv x hx
      rw [genBuckets] at hx
      by_cases hlt : v < (10:ℚ) ^ 20
      · rw [if_pos hlt] at hx
        rcases List.mem_cons.mp hx with hxv | hxr
        · exact hxv ▸ ⟨hv, hlt⟩
        · exact ih (v * (11/10)) (by positivity) x hxr
      · rw [if_neg hlt] at hx
        simp at hx

theorem dblMax_pos : 0 < dblMax := by
  rw [dblMax]
  norm_num

theorem ten_pow_lt_dblMax : (10:ℚ) ^ 20 < dblMax := by
  rw [dblMax]
  norm_num

theorem posBuckets_mem_bounds : ∀ x ∈ posBuckets, 0 < x ∧ x ≤ dblMax := by
  intro x hx
  rw [posBuckets] at hx
  rcases List.mem_append.mp hx with hg | hm
  · obtain ⟨h1, h2⟩ := genBuckets_mem_bounds 1000 (1 / (10:ℚ) ^ 12) (by positivity) x hg
    exact ⟨h1, le_of_lt (lt_trans h2 ten_pow_lt_dblMax)⟩
  · rw [List.mem_singleton.mp hm]
    exact ⟨dblMax_pos, le_refl dblMax⟩

theorem mem_default_le_dblMax : ∀ x ∈ InitDefaultHistogramBuckets, x ≤ dblMax := by
  intro x hx
  rw [InitDefaultHistogramBuckets] at hx
  rcases List.mem_append.mp hx with hl | hp
  · rcases List.mem_append.mp hl with hn | h0
    · obtain ⟨b, hb, hbx⟩ := List.mem_map.mp hn
      have hbp := (posBuckets_mem_bounds b (List.mem_reverse.mp hb)).1
      rw [← hbx]
      linarith [dblMax_pos]
    · rw [List.mem_singleton.mp h0]
      exact le_of_lt dblMax_pos
  · exact (posBuckets_mem_bounds x hp).2

theorem dblMax_mem_default : dblMax ∈ InitDefaultHistogramBuckets := by
  rw [InitDefaultHistogramBuckets, posBuckets]
  simp

theorem upperBound_eq_length_iff (l : List ℚ) (v : ℚ) :
    upperBound l v = l.length ↔ ∀ x ∈ l, x ≤ v := by
  induction l with
  | nil => simp [upperBound]
  | cons x xs ih =>
      by_cases hx : x ≤ v
      · have hub : upperBound (x :: xs) v = upperBound xs v + 1 := by
          simp [upperBound, List.takeWhile_cons, hx]
        rw [hub]
        simp only [List.length_cons, List.forall_mem_cons]
        constructor
        · intro he
          exact ⟨hx, ih.mp (by omega)⟩
        · intro he
          have := ih.mpr he.2
          omega
      · have hub : upperBound (x :: xs) v = 0 := by
          simp [upperBound, List.takeWhile_cons, hx]
        rw [hub]
        simp only [List.length_cons, List.forall_mem_cons]
        constructor
        · intro he; omega
        · intro he; exact absurd he.1 hx

theorem upperBound_default_lt (v : ℚ) (hv : v < dblMax) :
    upperBound InitDefaultHistogramBuckets v <
      InitDefaultHistogramBuckets.length := by
  have hle := (upperBound_spec InitDefaultHistogramBuckets v).2.2
  rcases lt_or_eq_of_le hle with hlt | heq
  · exact hlt
  · have hall := (upperBound_eq_length_iff InitDefaultHistogramBuckets v).mp heq
    exact absurd (hall dblMax dblMax_mem_default) (not_le.mpr hv)

theorem upperBound_default_max :
    upperBound InitDefaultHistogramBuckets dblMax =
      InitDefaultHistogramBuckets.length :=
  (upperBound_eq_length_iff InitDefaultHistogramBuckets dblMax).mpr
    mem_default_le_dblMax

/-- C9: for the default bucket table the upper-bound index of a finite
double is within the bucket-counts array whenever the value is strictly
below DBL_MAX, but at the finite value DBL_MAX itself (which the NaN and
infinity guards of the calling kernel do not reject) the index equals the
array length, so the subsequent increment buckets_[bucket] += 1.0 is out
of bounds. -/
theorem default_bucket_index_bound :
    (∀ v : ℚ, v < dblMax →
        upperBound InitDefaultHistogramBuckets v <
          InitDefaultHistogramBuckets.length) ∧
    upperBound InitDefaultHistogramBuckets dblMax =
      InitDefaultHistogramBuckets.length ∧
    mkHistogram.buckets.length = InitDefaultHistogramBuckets.length := by
  exact ⟨upperBound_default_lt, upperBound_default_max, by simp [mkHistogram]⟩

theorem default_bucket_index_bound_witness :
    upperBound InitDefaultHistogramBuckets 0 <
      InitDefaultHistogramBuckets.length :=
  default_bucket_index_bound.1 0 dblMax_pos

theorem sum_set_incr (l : List ℚ) :
    ∀ j, j < l.length → (l.set j (l.getD j 0 + 1)).sum = l.sum + 1 := by
  induction l with
  | nil => intro j hj; simp at hj
  | cons x xs ih =>
      intro j hj
      cases j with
      | zero => simp [List.sum_cons]; ring
      | succ m =>
          simp only [List.set_cons_succ, List.getD_cons_succ, List.sum_cons]
          rw [ih m (by simpa using hj)]
          ring

theorem add_default_inv (h : Histogram) (v : ℚ)
    (hl : h.bucket_limits = InitDefaultHistogramBuckets)
    (hb : h.buckets.length = InitDefaultHistogramBuckets.length)
    (hv : v < dblMax) :
    (h.add v).num = h.num + 1 ∧
    (h.add v).buckets.sum = h.buckets.sum + 1 ∧
    (h.add v).buckets.length = InitDefaultHistogramBuckets.length ∧
    (h.add v).bucket_limits = InitDefaultHistogramBuckets := by
  have hub : upperBound h.bucket_limits v < h.buckets.length := by
    rw [hl, hb]
    exact upperBound_default_lt v hv
  refine ⟨rfl, ?_, ?_, hl⟩
  · have hset : (h.add v).buckets =
        h.buckets.set (upperBound h.bucket_limits v)
          (h.buckets.getD (upperBound h.bucket_limits v) 0 + 1) := rfl
    rw [hset, sum_set_incr h.buckets _ hub]
  · have hset : (h.add v).buckets =
        h.buckets.set (upperBound h.bucket_limits v)
          (h.buckets.getD (upperBound h.bucket_limits v) 0 + 1) := rfl
    rw [hset, List.length_set]
    exact hb

theorem foldl_add_default_inv (vs : List ℚ) :
    ∀ h : Histogram,
      h.bucket_limits = InitDefaultHistogramBuckets →
      h.buckets.length = InitDefaultHistogramBuckets.length →
      (∀ v ∈ vs, v < dblMax) →
      (vs.foldl Histogram.add h).num = h.num + (vs.length : ℚ) ∧
      (vs.foldl Histogram.add h).buckets.sum = h.buckets.sum + (vs.length : ℚ) ∧
      (vs.foldl Histogram.add h).buckets.length =
        InitDefaultHistogramBuckets.length ∧
      (vs.foldl Histogram.add h).bucket_limits = InitDefaultHistogramBuckets := by
  induction vs with
  | nil =>
      intro h hl hb _
      refine ⟨by simp, by simp, hb, hl⟩
  | cons v rest ih =>
      intro h hl hb hall
      obtain ⟨h1, h2, h3, h4⟩ :=
        add_default_inv h v hl hb (hall v (List.mem_cons_self v rest))
      obtain ⟨g1, g2, g3, g4⟩ :=
        ih (h.add v) h4 h3 (fun w hw => hall w (List.mem_cons_of_mem v hw))
      rw [List.foldl_cons]
      refine ⟨?_, ?_, g3, g4⟩
      · rw [g1, h1]
        push_cast [List.length_cons]
        ring
      · rw [g2, h2]
        push_cast [List.length_cons]
        ring

theorem specMergeAux_fst_sum (l : List (ℚ × ℚ)) :
    ∀ p : ℚ × ℚ,
      ((specMergeAux (some p) l).map Prod.fst).sum = p.1 + (l.map Prod.fst).sum := by
  induction l with
  | nil => intro p; simp [specMergeAux]
  | cons q rest ih =>
      intro p
      by_cases hq : q.1 = 0 ∧ p.1 = 0
      · rw [specMergeAux, if_pos hq]
        rw [ih (p.1, q.2)]
        simp [hq.1]
      · rw [specMergeAux, if_neg hq]
        simp only [List.map_cons, List.sum_cons]
        rw [ih q]

theorem serialize_fst_sum (h : Histogram)
    (hlen : h.buckets.length = h.bucket_limits.length) :
    (h.serializeToProto.pairs.map Prod.fst).sum = h.buckets.sum := by
  rw [Histogram.serializeToProto]
  by_cases hr : h.rawPairs = []
  · have hz : h.buckets.zip h.bucket_limits = [] := by
      rcases hzc : h.buckets.zip h.bucket_limits with _ | ⟨q, rest⟩
      · rfl
      · rw [rawPairs_eq_specMerge, hzc, specMerge, specMergeAux] at hr
        obtain ⟨e, r, hqr⟩ := specMergeAux_head rest q
        rw [hqr] at hr
        simp at hr
    have hb : h.buckets = [] := by
      have := @List.length_zip ℚ ℚ h.buckets h.bucket_limits
      rw [hz] at this
      simp only [List.length_nil] at this
      have hmin : min h.buckets.length h.bucket_limits.length = h.buckets.length := by
        omega
      rw [hmin] at this
      exact List.length_eq_zero.mp this.symm
    simp [hr, hb]
  · simp only [if_neg hr]
    rw [rawPairs_eq_specMerge]
    rcases hzc : h.buckets.zip h.bucket_limits with _ | ⟨q, rest⟩
    · rw [rawPairs_eq_specMerge, hzc] at hr
      simp [specMerge, specMergeAux] at hr
    · rw [specMerge, specMergeAux, specMergeAux_fst_sum rest q]
      have hfst : ((h.buckets.zip h.bucket_limits).map Prod.fst) = h.buckets :=
        List.map_fst_zip h.buckets h.bucket_limits (le_of_eq hlen)
      rw [hzc] at hfst
      simp only [List.map_cons, List.sum_cons] at hfst
      rw [← hfst, List.sum_cons]

/-- C4: demonstration of the accounting claim and of the input that breaks
it. Adding the finite value DBL_MAX to a fresh default histogram raises
num to 1 while the bucket counts stay all zero, because the increment
index equals the array length (out of bounds in the C++ code); for every
sequence of values strictly below DBL_MAX the claimed accounting does
hold: num equals the number of Add calls, the internal bucket counts and
the exported pair counts both sum to num, and the counts array keeps the
length of the limits array. -/
theorem histogram_count_accounting :
    ((mkHistogram.add dblMax).num = 1 ∧ (mkHistogram.add dblMax).buckets.sum = 0) ∧
    (∀ vs : List ℚ, (∀ v ∈ vs, v < dblMax) →
        (vs.foldl Histogram.add mkHistogram).num = (vs.length : ℚ) ∧
        (vs.foldl Histogram.add mkHistogram).buckets.sum = (vs.length : ℚ) ∧
        ((vs.foldl Histogram.add mkHistogram).serializeToProto.pairs.map
            Prod.fst).sum = (vs.length : ℚ) ∧
        (vs.foldl Histogram.add mkHistogram).buckets.length =
          (vs.foldl Histogram.add mkHistogram).bucket_limits.length) := by
  constructor
  · constructor
    · show (0:ℚ) + 1 = 1
      ring
    · have hoob : mkHistogram.buckets.length ≤
          upperBound mkHistogram.bucket_limits dblMax := by
        have h1 : mkHistogram.bucket_limits = InitDefaultHistogramBuckets := rfl
        have h2 : mkHistogram.buckets.length =
            InitDefaultHistogramBuckets.length := by simp [mkHistogram]
        rw [h1, h2, upperBound_default_max]
      have hset : (mkHistogram.add dblMax).buckets =
          mkHistogram.buckets.set (upperBound mkHistogram.bucket_limits dblMax)
            (mkHistogram.buckets.getD
              (upperBound mkHistogram.bucket_limits dblMax) 0 + 1) := rfl
      rw [hset, List.set_eq_of_length_le hoob]
      simp [mkHistogram]
  · intro vs hall
    have hl : mkHistogram.bucket_limits = InitDefaultHistogramBuckets := rfl
    have hb : mkHistogram.buckets.length = InitDefaultHistogramBuckets.length := by
      simp [mkHistogram]
    obtain ⟨g1, g2, g3, g4⟩ := foldl_add_default_inv vs mkHistogram hl hb hall
    have hnum0 : mkHistogram.num = 0 := rfl
    have hsum0 : mkHistogram.buckets.sum = 0 := by
      simp [mkHistogram]
    refine ⟨by rw [g1, hnum0]; ring, by rw [g2, hsum0]; ring, ?_, by rw [g3, g4]⟩
    rw [serialize_fst_sum _ (by rw [g3, g4]), g2, hsum0]
    ring

theorem histogram_count_accounting_witness :
    (([(1:ℚ)]).foldl Histogram.add mkHistogram).num =
      ((([(1:ℚ)]).length : ℕ) : ℚ) :=
  (histogram_count_accounting.2 [(1:ℚ)]
    (by
      intro v hv
      rw [List.mem_singleton.mp hv, dblMax]
      norm_num)).1

/-- Model of one tensorboard Summary value entry: the tag string and an
abstract payload standing for the rest of the message. -/
structure SValue where
  tag : String
  payload : ℕ

/-- Non-empty tags of a value list, in entry order; empty tags are never
entered into the duplicate-detection set by the C++ code. -/
def nonEmptyTags (vs : List SValue) : List String :=
  (vs.map SValue.tag).filter (fun t => t ≠ "")

/-- Model of the inner loop of SummaryMergeOp..Compute over the values of
one parsed input summary: each value is appended to the output; a
non-empty tag already in the set yields the duplicate-tag error, otherwise
a non-empty tag is inserted into the set. -/
def mergeValues (seen : List String) (acc : List SValue) :
    List SValue → Except String (List String × List SValue)
  | [] => Except.ok (seen, acc)
  | v :: rest =>
      if v.tag ≠ "" then
        if v.tag ∈ seen then
          Except.error ("SummaryMerge inputs contain duplicate tag: " ++ v.tag)
        else mergeValues (v.tag :: seen) (acc ++ [v]) rest
      else mergeValues seen (acc ++ [v]) rest

/-- Model of the outer loop of SummaryMergeOp..Compute over the inputs:
none models an input blob that does not parse as a Summary proto. -/
def summaryMergeGo (seen : List String) (acc : List SValue) :
    List (Option (List SValue)) → Except String (List SValue)
  | [] => Except.ok acc
  | none :: _ =>
      Except.error "SummaryMerge failed to parse input tensor as a serialized Summary proto"
  | some vs :: rest =>
      match mergeValues seen acc vs with
      | Except.error e => Except.error e
      | Except.ok (seen2, acc2) => summaryMergeGo seen2 acc2 rest

/-- Model of SummaryMergeOp..Compute on the list of parse results of its
inputs. -/
def summaryMerge (inputs : List (Option (List SValue))) : Except String (List SValue) :=
  summaryMergeGo [] [] inputs

/-- Failure of the modelled kernel status. -/
def isErr {α : Type} (x : Except String α) : Prop := ∃ e, x = Except.error e

theorem nonEmptyTags_cons (v : SValue) (vs : List SValue) :
    nonEmptyTags (v :: vs) =
      if v.tag ≠ "" then v.tag :: nonEmptyTags vs else nonEmptyTags vs := by
  by_cases hv : v.tag ≠ ""
  · simp [nonEmptyTags, hv]
  · simp [nonEmptyTags, hv]

theorem nonEmptyTags_append (a b : List SValue) :
    nonEmptyTags (a ++ b) = nonEmptyTags a ++ nonEmptyTags b := by
  simp [nonEmptyTags]

theorem mergeValues_ok (vs : List SValue) :
    ∀ (seen : List String) (acc : List SValue),
      (nonEmptyTags vs).Nodup →
      (∀ t ∈ nonEmptyTags vs, t ∉ seen) →
      ∃ seen2, mergeValues seen acc vs = Except.ok (seen2, acc ++ vs) ∧
        ∀ t, t ∈ seen2 ↔ (t ∈ seen ∨ t ∈ nonEmptyTags vs) := by
  induction vs with
  | nil =>
      intro seen acc _ _
      exact ⟨seen, by simp [mergeValues], by simp [nonEmptyTags]⟩
  | cons v rest ih =>
      intro seen acc hnd hout
      by_cases hv : v.tag ≠ ""
      · rw [nonEmptyTags_cons, if_pos hv] at hnd hout
        have hnotin : v.tag ∉ seen := hout v.tag (List.mem_cons_self _ _)
        have hnd2 : (nonEmptyTags rest).Nodup := (List.nodup_cons.mp hnd).2
        have hvnotin : v.tag ∉ nonEmptyTags rest := (List.nodup_cons.mp hnd).1
        have hout2 : ∀ t ∈ nonEmptyTags rest, t ∉ v.tag :: seen := by
          intro t ht
          rw [List.mem_cons]
          push_neg
          exact ⟨fun he => hvnotin (he ▸ ht), hout t (List.mem_cons_of_mem _ ht)⟩
        obtain ⟨seen2, hok, hiff⟩ := ih (v.tag :: seen) (acc ++ [v]) hnd2 hout2
        refine ⟨seen2, ?_, ?_⟩
        · rw [mergeValues, if_pos hv, if_neg hnotin, hok]
          simp
        · intro t
          rw [hiff t, nonEmptyTags_cons, if_pos hv]
          simp only [List.mem_cons]
          tauto
      · rw [nonEmptyTags_cons, if_neg hv] at hnd hout
        obtain ⟨seen2, hok, hiff⟩ := ih seen (acc ++ [v]) hnd hout
        refine ⟨seen2, ?_, ?_⟩
        · rw [mergeValues, if_neg hv, hok]
          simp
        · intro t
          rw [hiff t, nonEmptyTags_cons, if_neg hv]

theorem mergeValues_err (vs : List SValue) :
    ∀ (seen : List String) (acc : List SValue),
      (¬ (nonEmptyTags vs).Nodup ∨ ∃ t ∈ nonEmptyTags vs, t ∈ seen) →
      isErr (mergeValues seen acc vs) := by
  induction vs with
  | nil =>
      intro seen acc hbad
      rcases hbad with hnd | ⟨t, ht, _⟩
      · simp [nonEmptyTags] at hnd
      · simp [nonEmptyTags] at ht
  | cons v rest ih =>
      intro seen acc hbad
      by_cases hv : v.tag ≠ ""
      · by_cases hin : v.tag ∈ seen
        · exact ⟨_, by rw [mergeValues, if_pos hv, if_pos hin]⟩
        · rw [mergeValues, if_pos hv, if_neg hin]
          apply ih
          rw [nonEmptyTags_cons, if_pos hv] at hbad
          rcases hbad with hnd | ⟨t, ht, hts⟩
          · rcases (List.nodup_cons.not.mp hnd |> not_and_or.mp) with hmem | hnd2
            · exact Or.inr ⟨v.tag, not_not.mp hmem, List.mem_cons_self _ _⟩
            · exact Or.inl hnd2
          · rcases List.mem_cons.mp ht with rfl | htr
            · exact absurd hts hin
            · exact Or.inr ⟨t, htr, List.mem_cons_of_mem _ hts⟩
      · rw [mergeValues, if_neg hv]
        apply ih
        rw [nonEmptyTags_cons, if_neg hv] at hbad
        exact hbad

theorem summaryMergeGo_ok (parsed : List (List SValue)) :
    ∀ (seen : List String) (acc : List SValue),
      (nonEmptyTags parsed.flatten).Nodup →
      (∀ t ∈ nonEmptyTags parsed.flatten, t ∉ seen) →
      summaryMergeGo seen acc (parsed.map some) =
        Except.ok (acc ++ parsed.flatten) := by
  induction parsed with
  | nil => intro seen acc _ _; simp [summaryMergeGo]
  | cons vs rest ih =>
      intro seen acc hnd hout
      rw [List.flatten_cons, nonEmptyTags_append] at hnd hout
      obtain ⟨h1, h2, hdisj⟩ := List.nodup_append.mp hnd
      have hout1 : ∀ t ∈ nonEmptyTags vs, t ∉ seen := fun t ht =>
        hout t (List.mem_append_left _ ht)
      obtain ⟨seen2, hok, hiff⟩ := mergeValues_ok vs seen acc h1 hout1
      rw [List.map_cons, summaryMergeGo, hok]
      have hout2 : ∀ t ∈ nonEmptyTags rest.flatten, t ∉ seen2 := by
        intro t ht hts
        rcases (hiff t).mp hts with hs | hv
        · exact hout t (List.mem_append_right _ ht) hs
        · exact hdisj hv ht
      show summaryMergeGo seen2 (acc ++ vs) (List.map some rest) =
        Except.ok (acc ++ (vs :: rest).flatten)
      rw [ih seen2 (acc ++ vs) h2 hout2, List.flatten_cons, List.append_assoc]

theorem summaryMergeGo_err_dup (parsed : List (List SValue)) :
    ∀ (seen : List String) (acc : List SValue),
      (¬ (nonEmptyTags parsed.flatten).Nodup ∨
        ∃ t ∈ nonEmptyTags parsed.flatten, t ∈ seen) →
      isErr (summaryMergeGo seen acc (parsed.map some)) := by
  induction parsed with
  | nil =>
      intro seen acc hbad
      rcases hbad with hnd | ⟨t, ht, _⟩
      · simp [nonEmptyTags] at hnd
      · simp [nonEmptyTags] at ht
  | cons vs rest ih =>
      intro seen acc hbad
      rw [List.flatten_cons, nonEmptyTags_append] at hbad
      by_cases hbadv : ¬ (nonEmptyTags vs).Nodup ∨ ∃ t ∈ nonEmptyTags vs, t ∈ seen
      · obtain ⟨e, he⟩ := mergeValues_err vs seen acc hbadv
        exact ⟨e, by rw [List.map_cons, summaryMergeGo, he]⟩
      · push_neg at hbadv
        obtain ⟨hnd1, hout1⟩ := hbadv
        obtain ⟨seen2, hok, hiff⟩ := mergeValues_ok vs seen acc hnd1 hout1
        rw [List.map_cons, summaryMergeGo, hok]
        show isErr (summaryMergeGo seen2 (acc ++ vs) (List.map some rest))
        apply ih
        rcases hbad with hnd | ⟨t, ht, hts⟩
        · rw [List.nodup_append] at hnd
          rcases not_and_or.mp hnd with hc | hc
          · exact absurd hnd1 hc
          · rcases not_and_or.mp hc with hc2 | hc2
            · exact Or.inl hc2
            · rw [List.disjoint_left] at hc2
              push_neg at hc2
              obtain ⟨t, ht1, ht2⟩ := hc2
              exact Or.inr ⟨t, ht2, (hiff t).mpr (Or.inr ht1)⟩
        · rcases List.mem_append.mp ht with h | h
          · exact absurd hts (hout1 t h)
          · exact Or.inr ⟨t, h, (hiff t).mpr (Or.inl hts)⟩

theorem summaryMergeGo_err_parse (inputs : List (Option (List SValue))) :
    ∀ (seen : List String) (acc : List SValue),
      none ∈ inputs → isErr (summaryMergeGo seen acc inputs) := by
  induction inputs with
  | nil => intro seen acc h; simp at h
  | cons i rest ih =>
      intro seen acc h
      cases i with
      | none => exact ⟨_, by rw [summaryMergeGo]⟩
      | some vs =>
          have hr : none ∈ rest := by
            rcases List.mem_cons.mp h with hc | hc
            · exact absurd hc (by simp)
            · exact hc
          rcases hm : mergeValues seen acc vs with e | p
          · exact ⟨e, by rw [summaryMergeGo, hm]⟩
          · rcases p with ⟨seen2, acc2⟩
            have := ih seen2 acc2 hr
            rcases this with ⟨e, he⟩
            exact ⟨e, by rw [summaryMergeGo, hm]; exact he⟩

/-- C5: SummaryMerge fails when any input does not parse, fails when two
entries across the parsed inputs share the same non-empty tag, and on
success returns exactly the concatenation of the input value entries in
input order (inputs in listed order, entries within an input in original
order). -/
theorem summary_merge_spec :
    (∀ inputs : List (Option (List SValue)),
        none ∈ inputs → isErr (summaryMerge inputs)) ∧
    (∀ parsed : List (List SValue),
        ¬ (nonEmptyTags parsed.flatten).Nodup →
        isErr (summaryMerge (parsed.map some))) ∧
    (∀ parsed : List (List SValue),
        (nonEmptyTags parsed.flatten).Nodup →
        summaryMerge (parsed.map some) = Except.ok parsed.flatten) := by
  refine ⟨?_, ?_, ?_⟩
  · intro inputs h
    exact summaryMergeGo_err_parse inputs [] [] h
  · intro parsed h
    exact summaryMergeGo_err_dup parsed [] [] (Or.inl h)
  · intro parsed h
    rw [summaryMerge, summaryMergeGo_ok parsed [] [] h (by simp)]
    simp

theorem summary_merge_spec_witness :
    summaryMerge [some [⟨"a", 0⟩], some [⟨"b", 1⟩]] =
      Except.ok [⟨"a", 0⟩, ⟨"b", 1⟩] ∧
    isErr (summaryMerge [some [⟨"a", 0⟩], some [⟨"a", 1⟩]]) := by
  constructor
  · exact summary_merge_spec.2.2 [[⟨"a", 0⟩], [⟨"b", 1⟩]]
      (by simp [nonEmptyTags])
  · exact summary_merge_spec.2.1 [[⟨"a", 0⟩], [⟨"a", 1⟩]]
      (by simp [nonEmptyTags])

/-- Model of the partition loop in the DataLoader constructor: walk the
sorted file list with a running counter and keep the files whose counter
satisfies count mod world_size == world_rank. -/
def keepShards {α : Type} : ℕ → List α → ℕ → ℕ → List α
  | _, [], _, _ => []
  | c, f :: rest, r, W =>
      if c % W = r then f :: keepShards (c + 1) rest r W
      else keepShards (c + 1) rest r W

theorem keepShards_mem {α : Type} (files : List α) :
    ∀ (c r W : ℕ) (x : α),
      x ∈ keepShards c files r W ↔
        ∃ i : ℕ, files[i]? = some x ∧ (c + i) % W = r := by
  induction files with
  | nil => intro c r W x; simp [keepShards]
  | cons f rest ih =>
      intro c r W x
      rw [keepShards]
      by_cases hc : c % W = r
      · rw [if_pos hc]
        constructor
        · intro hx
          rcases List.mem_cons.mp hx with rfl | hxr
          · exact ⟨0, List.getElem?_cons_zero, by simpa using hc⟩
          · obtain ⟨i, hi, hm⟩ := (ih (c + 1) r W x).mp hxr
            refine ⟨i + 1, by simpa using hi, ?_⟩
            rw [show c + (i + 1) = c + 1 + i by ring]
            exact hm
        · rintro ⟨i, hi, hm⟩
          cases i with
          | zero =>
              rw [List.getElem?_cons_zero, Option.some_inj] at hi
              exact hi ▸ List.mem_cons_self f _
          | succ j =>
              rw [List.getElem?_cons_succ] at hi
              refine List.mem_cons_of_mem f ((ih (c + 1) r W x).mpr ⟨j, hi, ?_⟩)
              rw [show c + 1 + j = c + (j + 1) by ring]
              exact hm
      · rw [if_neg hc]
        rw [ih (c + 1) r W x]
        constructor
        · rintro ⟨i, hi, hm⟩
          refine ⟨i + 1, by simpa using hi, ?_⟩
          rw [show c + (i + 1) = c + 1 + i by ring]
          exact hm
        · rintro ⟨i, hi, hm⟩
          cases i with
          | zero => rw [Nat.add_zero] at hm; exact absurd hm hc
          | succ j =>
              rw [List.getElem?_cons_succ] at hi
              refine ⟨j, hi, ?_⟩
              rw [show c + 1 + j = c + (j + 1) by ring]
              exact hm

/-- C6: for every file list and every world size of at least one, the
per-rank lists keepShards 0 files r W for ranks 0..W-1 cover the full list
(no omissions) and, when the file list has no duplicates, are pairwise
disjoint (no overlaps). -/
theorem shard_partition {α : Type} (files : List α) (W : ℕ) (hW : 1 ≤ W) :
    (∀ x, x ∈ files ↔ ∃ r, r < W ∧ x ∈ keepShards 0 files r W) ∧
    (files.Nodup →
      ∀ r s, r < W → s < W → r ≠ s →
        ∀ x, x ∈ keepShards 0 files r W → x ∉ keepShards 0 files s W) := by
  constructor
  · intro x
    constructor
    · intro hx
      obtain ⟨i, hi⟩ := List.mem_iff_getElem?.mp hx
      refine ⟨i % W, Nat.mod_lt _ (by omega), ?_⟩
      exact (keepShards_mem files 0 (i % W) W x).mpr ⟨i, hi, by simp⟩
    · rintro ⟨r, _, hx⟩
      obtain ⟨i, hi, _⟩ := (keepShards_mem files 0 r W x).mp hx
      rcases List.getElem?_eq_some_iff.mp hi with ⟨hilt, rfl⟩
      exact List.getElem_mem hilt
  · intro hnd r s hr hs hrs x hxr hxs
    obtain ⟨i, hi, hmi⟩ := (keepShards_mem files 0 r W x).mp hxr
    obtain ⟨j, hj, hmj⟩ := (keepShards_mem files 0 s W x).mp hxs
    have hilt : i < files.length := (List.getElem?_eq_some_iff.mp hi).1
    have hij : i = j := List.getElem?_inj hilt hnd (by rw [hi, hj])
    apply hrs
    rw [← hmi, ← hmj, hij]

theorem shard_partition_witness :
    (20 ∈ [10, 20, 30] ↔ ∃ r, r < 2 ∧ 20 ∈ keepShards 0 [10, 20, 30] r 2) :=
  (shard_partition [10, 20, 30] 2 (by norm_num)).1 20

/-- Model of the world partitioning step of the DataLoader constructor:
the rank check and the modular filter run only when world_size exceeds
one; otherwise the full file list is kept unchanged. -/
def dataLoaderPartition {α : Type} (files : List α)
    (world_rank world_size : ℕ) : Except String (List α) :=
  if 1 < world_size then
    if world_rank ≥ world_size then
      Except.error "world_rank must be 0~world_size-1"
    else Except.ok (keepShards 0 files world_rank world_size)
  else Except.ok files

/-- C7 counterexample: with world_rank = 1 and world_size = 1 the rank is
not below the world size, yet construction succeeds, because the check
runs only when world_size exceeds one. -/
theorem data_loader_rank_check_cex :
    dataLoaderPartition ([] : List ℕ) 1 1 = Except.ok [] ∧
    ¬ isErr (dataLoaderPartition ([] : List ℕ) 1 1) := by
  constructor
  · rfl
  · rintro ⟨e, he⟩
    simp [dataLoaderPartition] at he

/-- C7 amended: DataLoader construction fails exactly when world_size
exceeds one and world_rank is at least world_size; for world_size of at
most one no rank validation happens and construction succeeds for every
rank. -/
theorem data_loader_rank_check :
    ∀ (files : List ℕ) (world_rank world_size : ℕ),
      isErr (dataLoaderPartition files world_rank world_size) ↔
        (1 < world_size ∧ world_size ≤ world_rank) := by
  intro files r s
  rw [dataLoaderPartition]
  by_cases h1 : 1 < s
  · rw [if_pos h1]
    by_cases h2 : r ≥ s
    · rw [if_pos h2]
      constructor
      · intro _; exact ⟨h1, h2⟩
      · intro _; exact ⟨_, rfl⟩
    · rw [if_neg h2]
      constructor
      · rintro ⟨e, he⟩; simp at he
      · intro hc; exact absurd hc.2 h2
  · rw [if_neg h1]
    constructor
    · rintro ⟨e, he⟩; simp at he
    · intro hc; exact absurd hc.1 h1

/-- Modulus of size_t arithmetic (64-bit). -/
def SIZE_T_MOD : ℕ := 2 ^ 64

/-- Shared loader buffer: an entry maps a shard index to a present entry
(some) holding either a loaded dataset id (some n) or the null marker
stored after a failed load (none); an absent entry (outer none) means the
index is not resident. -/
def Buffer : Type := ℕ → Option (Option ℕ)

/-- Model of the DataLoader bookkeeping state used by MoveToNextDataSet:
the active shard cursor, the preload window, the shard count, and the
shared buffer. -/
structure LoaderState where
  active_file_index : ℕ
  max_num_files_preload : ℕ
  num_shards : ℕ
  buffer : Buffer

/-- Modelled from the spec: CurrentDataSet is declared in the data loader
header, which is not among the sources; per the specification it returns
the shard corresponding to the active index from the shared buffer. -/
def LoaderState.currentDataSet (st : LoaderState) : Option (Option ℕ) :=
  st.buffer st.active_file_index

/-- Parameters of the load-and-remove task scheduled by one advance step,
plus the value returned to the caller. -/
structure MoveResult where
  index_to_remove : ℕ
  index_to_load : ℕ
  need_remove : Bool
  returned : Option (Option ℕ)

/-- Model of DataLoader..MoveToNextDataSet: remember the active index for
eviction, advance the active index by one modulo the shard count, compute
the preload target active + preload - 1 in size_t arithmetic then modulo
the shard count, schedule the load-and-remove task with need_remove set,
and return the dataset at the new active index. -/
def MoveToNextDataSet (st : LoaderState) : MoveResult × LoaderState :=
  let index_to_remove := st.active_file_index
  let newActive := (st.active_file_index + 1) % st.num_shards
  let index_to_load :=
    ((newActive + st.max_num_files_preload + (SIZE_T_MOD - 1)) % SIZE_T_MOD)
      % st.num_shards
  let st2 := { st with active_file_index := newActive }
  (⟨index_to_remove, index_to_load, true, st2.currentDataSet⟩, st2)

/-- C8: with shard count at least one, a positive preload window, and no
size_t overflow, MoveToNextDataSet records the old active index for
eviction, advances the active index by one modulo the shard count,
schedules a load of the shard at new active + preload - 1 modulo the
shard count, and returns the buffer entry of the new active index. -/
theorem move_to_next_data_set_spec :
    ∀ st : LoaderState,
      1 ≤ st.num_shards →
      1 ≤ st.max_num_files_preload →
      st.num_shards + st.max_num_files_preload < SIZE_T_MOD →
      (MoveToNextDataSet st).1.index_to_remove = st.active_file_index ∧
      (MoveToNextDataSet st).2.active_file_index =
        (st.active_file_index + 1) % st.num_shards ∧
      (MoveToNextDataSet st).1.index_to_load =
        ((MoveToNextDataSet st).2.active_file_index +
          st.max_num_files_preload - 1) % st.num_shards ∧
      (MoveToNextDataSet st).1.need_remove = true ∧
      (MoveToNextDataSet st).1.returned =
        st.buffer ((st.active_file_index + 1) % st.num_shards) := by
  intro st hS hP hM
  refine ⟨rfl, rfl, ?_, rfl, rfl⟩
  show ((((st.active_file_index + 1) % st.num_shards) +
      st.max_num_files_preload + (SIZE_T_MOD - 1)) % SIZE_T_MOD)
        % st.num_shards =
    (((st.active_file_index + 1) % st.num_shards) +
      st.max_num_files_preload - 1) % st.num_shards
  have haS : (st.active_file_index + 1) % st.num_shards < st.num_shards :=
    Nat.mod_lt _ (by omega)
  have h1 : (st.active_file_index + 1) % st.num_shards +
      st.max_num_files_preload + (SIZE_T_MOD - 1) =
      ((st.active_file_index + 1) % st.num_shards +
        st.max_num_files_preload - 1) + SIZE_T_MOD := by
    have hMpos : 1 ≤ SIZE_T_MOD := by rw [SIZE_T_MOD]; norm_num
    omega
  have h2 : (st.active_file_index + 1) % st.num_shards +
      st.max_num_files_preload - 1 < SIZE_T_MOD := by
    omega
  rw [h1, Nat.add_mod_right, Nat.mod_eq_of_lt h2]

theorem move_to_next_data_set_spec_witness :
    (MoveToNextDataSet ⟨0, 1, 1, fun _ => none⟩).1.index_to_remove = 0 :=
  (move_to_next_data_set_spec ⟨0, 1, 1, fun _ => none⟩ (by norm_num)
    (by norm_num) (by rw [SIZE_T_MOD]; norm_num)).1

/-- Model of the early-return guard of the scheduled task in
LoadAndRemoveInternalAsync: index_to_load > data_files_.size() - 1
computed in size_t arithmetic, so a size of zero wraps to 2 ^ 64 - 1. -/
def taskGuard (num_files index_to_load : ℕ) : Bool :=
  decide ((num_files + (SIZE_T_MOD - 1)) % SIZE_T_MOD < index_to_load)

/-- Model of the body of the task scheduled by
LoadAndRemoveInternalAsync: return the buffer unchanged when the guard
fires; otherwise store the load result at index_to_load (the null marker
none when the file load failed) and, when need_remove is set, remove the
entry at index_to_remove. load_result abstracts the outcome of LoadFile. -/
def LoadAndRemoveInternalAsync (num_files : ℕ) (load_result : Option ℕ)
    (buf : Buffer) (index_to_load : ℕ) (need_remove : Bool)
    (index_to_remove : ℕ) : Buffer :=
  if taskGuard num_files index_to_load then buf
  else
    let buf1 : Buffer := fun i =>
      if i = index_to_load then some load_result else buf i
    if need_remove then
      fun i => if i = index_to_remove then none else buf1 i
    else buf1

/-- C10 counterexample: with zero shard files and index_to_load zero the
claim would require the early return (0 is at least the file count 0),
but the size_t guard 0 > 0 - 1 wraps to 0 > 2 ^ 64 - 1 and is false, so
the task proceeds and modifies the buffer (in the C++ code it first reads
data_files_[0] out of bounds). -/
theorem load_task_empty_guard_cex :
    taskGuard 0 0 = false ∧
    LoadAndRemoveInternalAsync 0 (some 7) (fun _ => none) 0 false 0 0 =
      some (some 7) := by
  constructor
  · rw [taskGuard, SIZE_T_MOD]
    norm_num
  · rw [LoadAndRemoveInternalAsync]
    rw [if_neg (by rw [taskGuard, SIZE_T_MOD]; norm_num)]
    simp

/-- C10 amended: when the shard file list is nonempty, a task whose
index_to_load is at least the file count takes the early return and
leaves the buffer completely unchanged: no entry is stored for
index_to_load and the eviction of index_to_remove is skipped. -/
theorem load_task_skips_out_of_range :
    ∀ (num_files : ℕ) (load_result : Option ℕ) (buf : Buffer)
      (index_to_load : ℕ) (need_remove : Bool) (index_to_remove : ℕ),
      1 ≤ num_files → num_files ≤ SIZE_T_MOD →
      num_files ≤ index_to_load →
      LoadAndRemoveInternalAsync num_files load_result buf index_to_load
        need_remove index_to_remove = buf := by
  intro S load buf itl nr itr hS hM hitl
  have hg : taskGuard S itl = true := by
    rw [taskGuard, decide_eq_true_eq]
    have hmod : (S + (SIZE_T_MOD - 1)) % SIZE_T_MOD = S - 1 := by
      rw [SIZE_T_MOD] at hM ⊢
      omega
    rw [hmod]
    omega
  rw [LoadAndRemoveInternalAsync, if_pos hg]

theorem load_task_skips_out_of_range_witness :
    LoadAndRemoveInternalAsync 1 (some 5) (fun _ => none) 1 true 0 =
      (fun _ => none) :=
  load_task_skips_out_of_range 1 (some 5) (fun _ => none) 1 true 0
    (by norm_num) (by rw [SIZE_T_MOD]; norm_num) (by norm_num)
